import Mathlib

set_option maxHeartbeats 1600000

/- A shallow embedding of src/src/io.c from the tig repository.

   Bytes are modelled as `Nat` and C byte buffers as `List Nat`.  A
   `struct io` becomes `IOSt`: `buf` is the allocated buffer (its length
   is the recorded capacity `bufalloc`), `bufpos` is the offset of the
   first unread byte, `bufsize` is the number of unread bytes, `eof` and
   `error` are the homonymous fields, and `input` models the remaining
   byte stream of the descriptor as the list of chunks that successive
   read(2) calls deliver (each raw read returns at most the requested
   number of bytes from the head chunk; an exhausted stream yields a
   zero-sized read, which `io_read` records as end of file, exactly as
   the C does).  Child processes, iconv, write(2) and external commands
   are modelled as explicit oracles where the C calls into the OS. -/

/-- The fixed buffer growth increment (stdio's BUFSIZ). -/
def BUFSIZ : Nat := 8192

/-- State of a `struct io` handle, restricted to the fields the stream
reader touches; `input` stands for the byte stream behind the pipe. -/
structure IOSt where
  buf : List Nat
  bufpos : Nat
  bufsize : Nat
  eof : Bool
  error : Nat
  input : List (List Nat)
deriving Repr, DecidableEq

/-- The unread region of the buffer: `bufsize` bytes starting at `bufpos`. -/
def IOSt.unread (io : IOSt) : List Nat := (io.buf.drop io.bufpos).take io.bufsize

/-- The logical byte stream still to be tokenized: the unread bytes
followed, unless end of file was already observed, by all bytes the
descriptor will still deliver. -/
def IOSt.stream (io : IOSt) : List Nat :=
  io.unread ++ (if io.eof = true then [] else io.input.flatten)

/-- The state invariant of a live read handle: the unread region lies
inside the recorded capacity, every pending read chunk is non-empty
(read(2) returns 0 only at end of file), and no error is recorded. -/
def IOSt.inv (io : IOSt) : Prop :=
  io.bufpos + io.bufsize ≤ io.buf.length ∧ (∀ ch ∈ io.input, ch ≠ []) ∧ io.error = 0

instance (io : IOSt) : Decidable io.inv := by
  unfold IOSt.inv; infer_instance

/-- io_eof (io.c line 363): whether the last raw read saw end of file. -/
def io_eof (io : IOSt) : Bool := io.eof

/-- io_error (io.c line 369): the recorded error code (0 = no error). -/
def io_error (io : IOSt) : Nat := io.error

/-- io_read (io.c line 393): one raw read of at most `space` bytes.
The C loop retries transparently on EINTR/EAGAIN, so these transient
conditions do not appear in the model; a read that delivers zero bytes
sets `eof` (the `readsize == 0` branch).  Reads from the modelled chunk
source never fail, so `error` is never set here. -/
def io_read (io : IOSt) (space : Nat) : List Nat × IOSt :=
  match io.input with
  | [] => ([], { io with eof := true })
  | ch :: rest =>
      if ch.take space = [] then ([], { io with eof := true })
      else if space < ch.length then (ch.take space, { io with input := ch.drop space :: rest })
      else (ch, { io with input := rest })

/-- Modelled from the spec: `DEFINE_ALLOCATOR(io_realloc_buf, char, BUFSIZ)`
expands a macro from tig/util.h, which is not under src/.  Spec section 4.1
(Growable Buffer): grows the backing store by fixed-size increments, never
shrinks, preserves the existing bytes, and on allocation failure leaves the
buffer unchanged and signals failure to the caller.  We track the recorded
capacity (the C field `bufalloc`) as `buf.length`; `allocOk` is the
allocation oracle. -/
def io_realloc_buf (allocOk : Bool) (buf : List Nat) (increase : Nat) : Option (List Nat) :=
  if allocOk then some (buf ++ List.replicate increase 0) else none

/-- The conditional growth step of io_get (io.c lines 460-464): grow by
BUFSIZ exactly when the recorded capacity equals the number of unread
bytes; on allocation failure report failure (`none`). -/
def io_grow (allocOk : Bool) (buf : List Nat) (size : Nat) : Option (List Nat) :=
  if buf.length = size then io_realloc_buf allocOk buf BUFSIZ else some buf

/-- Termination measure for the io_get loop: every non-returning loop
iteration performs a raw read, which either consumes input bytes, drops a
chunk, or flips `eof`. -/
def ioMeasure (io : IOSt) : Nat :=
  2 * (io.input.map List.length).sum + io.input.length + (if io.eof = true then 0 else 1)

/-- io_get (io.c lines 423-472): delimiter-based token extraction.
The memchr scan over the unread region is expressed as the split of
`io.unread` at the first occurrence of `c` (`takeWhile`/`dropWhile`);
when a delimiter is found the token is NUL-terminated in place (the
`List.set` write lands strictly before the new `bufpos`) and the unread
region shrinks past it.  At end of file a non-empty remainder is
returned once as a final token (the terminating NUL write at
`bufpos[bufsize]` may fall outside the recorded capacity, where
`List.set` is a no-op, matching that the write is invisible through the
recorded capacity).  Otherwise the buffer is compacted, grown when full,
refilled by `io_read`, and the scan retried.  `allocOk` is the
allocation oracle threaded into `io_grow`. -/
def io_get (io : IOSt) (c : Nat) (can_read : Bool) (allocOk : Bool) :
    Option (List Nat) × IOSt :=
  match io.unread.dropWhile (fun b => b ≠ c) with
  | _ :: _ =>
      (some (io.unread.takeWhile (fun b => b ≠ c)),
       { io with
         buf := io.buf.set (io.bufpos + (io.unread.takeWhile (fun b => b ≠ c)).length) 0,
         bufpos := io.bufpos + (io.unread.takeWhile (fun b => b ≠ c)).length + 1,
         bufsize := io.bufsize - ((io.unread.takeWhile (fun b => b ≠ c)).length + 1) })
  | [] =>
    if io_eof io = true then
      if io.bufsize ≠ 0 then
        (some io.unread,
         { io with
           buf := io.buf.set (io.bufpos + io.bufsize) 0,
           bufpos := io.bufpos + io.bufsize,
           bufsize := 0 })
      else (none, io)
    else if can_read = false then (none, io)
    else
      match io_grow allocOk
              (if 0 < io.bufsize ∧ 0 < io.bufpos
               then io.unread ++ io.buf.drop io.bufsize else io.buf)
              io.bufsize with
      | none =>
          (none, { io with
                   buf := (if 0 < io.bufsize ∧ 0 < io.bufpos
                           then io.unread ++ io.buf.drop io.bufsize else io.buf) })
      | some buf2 =>
          match hrd : io_read io (buf2.length - io.bufsize) with
          | (d, io2) =>
              if io_error io2 ≠ 0 then
                (none, { io2 with
                         buf := buf2.take io.bufsize ++ d ++ buf2.drop (io.bufsize + d.length),
                         bufpos := 0 })
              else
                io_get
                  { io2 with
                    buf := buf2.take io.bufsize ++ d ++ buf2.drop (io.bufsize + d.length),
                    bufpos := 0,
                    bufsize := io.bufsize + d.length }
                  c can_read allocOk
termination_by ioMeasure io
decreasing_by
  rename_i heofn hcrn herrn
  have heof : io.eof = false := by
    revert heofn
    unfold io_eof
    cases io.eof <;> simp
  have key : ∀ (io2' : IOSt) (dd : List Nat),
      io_read io (buf2.length - io.bufsize) = (dd, io2') →
      ioMeasure io2' < ioMeasure io := by
    intro io2' dd h
    unfold io_read at h
    unfold ioMeasure
    rcases hin : io.input with _ | ⟨ch, rest⟩ <;> simp only [hin] at h
    · simp only [Prod.mk.injEq] at h
      rw [← h.2]
      simp [heof]
    · by_cases h1 : ch.take (buf2.length - io.bufsize) = []
      · rw [if_pos h1] at h
        simp only [Prod.mk.injEq] at h
        rw [← h.2]
        simp [heof]
      · rw [if_neg h1] at h
        have hsp : buf2.length - io.bufsize ≠ 0 := by
          intro h0; rw [h0, List.take_zero] at h1; exact h1 rfl
        have hch : ch ≠ [] := by
          intro h0; rw [h0, List.take_nil] at h1; exact h1 rfl
        by_cases h2 : buf2.length - io.bufsize < ch.length
        · rw [if_pos h2] at h
          simp only [Prod.mk.injEq] at h
          rw [← h.2]
          have hpos : 0 < buf2.length - io.bufsize := Nat.pos_of_ne_zero hsp
          simp [heof, List.length_drop]
          omega
        · rw [if_neg h2] at h
          simp only [Prod.mk.injEq] at h
          rw [← h.2]
          have hpos : 0 < ch.length := List.length_pos.mpr hch
          simp [heof]
          omega
  exact key io2 d hrd

/-- Repeated io_get calls: collect the tokens of up to `fuel` successive
calls (stopping at the first end-of-stream result), returning the tokens
and the final state.  This models a caller-driven read loop. -/
def io_run (c : Nat) (can_read : Bool) (allocOk : Bool) : Nat → IOSt → List (List Nat) × IOSt
  | 0, io => ([], io)
  | fuel + 1, io =>
      match io_get io c can_read allocOk with
      | (none, io') => ([], io')
      | (some t, io') =>
          let r := io_run c can_read allocOk fuel io'
          (t :: r.1, r.2)

/-- io_from_string (io.c lines 530-546): wrap a string as a virtual
input.  The C allocates `len` recorded bytes through io_realloc_buf,
copies the string (strncpy of exactly `len` bytes), and marks the handle
at end of file with the whole string unread. -/
def io_from_string (str : List Nat) (allocOk : Bool) : Option IOSt :=
  match io_realloc_buf allocOk [] str.length with
  | none => none
  | some _ =>
      some { buf := str, bufpos := 0, bufsize := str.length,
             eof := true, error := 0, input := [] }

/-- A freshly io_init-ed read handle (io.c lines 133-138) whose
descriptor will deliver the given chunks: empty buffer, no error, not at
end of file. -/
def io_from_chunks (chunks : List (List Nat)) : IOSt :=
  { buf := [], bufpos := 0, bufsize := 0, eof := false, error := 0, input := chunks }

/-- Reference tokenization of a byte stream: split at every occurrence
of `c`; a final unterminated non-empty chunk is one last token, and a
stream ending in `c` produces no empty trailing token. -/
def splitTokens (c : Nat) : List Nat → List (List Nat)
  | [] => []
  | x :: xs =>
      if x = c then [] :: splitTokens c xs
      else
        match splitTokens c xs with
        | [] => [[x]]
        | t :: ts => (x :: t) :: ts

/-- Lines joined by a separator byte, no trailing separator. -/
def joinSep (c : Nat) : List (List Nat) → List Nat
  | [] => []
  | [l] => l
  | l :: ls => l ++ c :: joinSep c ls

/-- Lines each terminated by a separator byte. -/
def joinTerm (c : Nat) (lines : List (List Nat)) : List Nat :=
  (lines.map (fun l => l ++ [c])).flatten

/- Reaper (io_done). -/

/-- The errno value EINTR. -/
def EINTR : Nat := 4

/-- One result of a waitpid(2) call: either failure with an errno, or a
reaped process with the returned pid, the WIFSIGNALED flag and the
WEXITSTATUS bits of the status. -/
inductive WaitResult where
  | err (errno : Nat)
  | reaped (waiting : Int) (signaled : Bool) (exitstatus : Nat)
deriving Repr, DecidableEq

/-- The fields of the handle io_done writes after resetting it: the
error code and the recorded child exit status. -/
structure DoneSt where
  error : Nat
  status : Nat
deriving Repr, DecidableEq

/-- The waitpid loop of io_done (io.c lines 176-194), driven by an
oracle listing successive waitpid results.  EINTR retries transparently;
any other wait failure records the errno and reports failure; a reaped
child records a non-zero exit status and succeeds exactly when the
returned pid matches, the child was not signaled, and the recorded
status is zero.  `none` means the oracle was exhausted. -/
def io_done_loop (pid : Int) (st : DoneSt) : List WaitResult → Option (Bool × DoneSt)
  | [] => none
  | w :: ws =>
      match w with
      | .err e =>
          if e = EINTR then io_done_loop pid st ws
          else some (false, { st with error := e })
      | .reaped waiting signaled exitstatus =>
          let st' := if exitstatus ≠ 0 then { st with status := exitstatus } else st
          some (decide (waiting = pid) && !signaled && decide (st'.status = 0), st')

/-- io_done (io.c lines 166-197): after closing the descriptor, freeing
the buffer and re-initializing the handle (so `error` and `status` start
at 0), wait for the child when one is tracked; with no child (pid ≤ 0)
report success immediately. -/
def io_done (pid : Int) (oracle : List WaitResult) : Option (Bool × DoneSt) :=
  if 0 < pid then io_done_loop pid { error := 0, status := 0 } oracle
  else some (true, { error := 0, status := 0 })

/- Key-value loader (io_load). -/

/-- Modelled from the spec: the OK completion code (from curses via
tig/tig.h, not under src/); spec section 4.8 calls it the `continue`
completion code. -/
def OK : Int := 0

/-- Modelled from the spec: the ERR completion code (from curses via
tig/tig.h, not under src/); spec section 4.8 calls it the failure
completion code. -/
def ERR : Int := -1

/-- Whitespace or control byte (ASCII): anything at or below the space
character, and DEL. -/
def isSpaceOrCtrl (b : Nat) : Bool := b ≤ 32 || b == 127

/-- Modelled from the spec: chomp_string lives in tig/util.h, which is
not under src/.  Spec section 4.8 trims tokens and values of
whitespace/control; its key-value example (section 8) maps the line
`key: value` to the value `value`, so the trim strips leading as well as
trailing whitespace/control bytes. -/
def chomp_string (s : List Nat) : List Nat :=
  ((s.dropWhile isSpaceOrCtrl).reverse.dropWhile isSpaceOrCtrl).reverse

/-- The per-line processing of io_load (io.c lines 560-571): trim the
token (chomp_string), split it at the first byte belonging to `seps`
(the strcspn call), trim the value; when no separator byte occurs the
value is empty. -/
def kvSplit (seps : List Nat) (line : List Nat) : List Nat × List Nat :=
  let name := chomp_string line
  let namelen := (name.takeWhile (fun b => decide (b ∉ seps))).length
  if namelen < name.length
  then (name.take namelen, chomp_string (name.drop (namelen + 1)))
  else (name, ([] : List Nat))

/-- io_load (io.c lines 548-581): repeatedly extract a newline token,
process it with `kvSplit`, and hand name/value with their lengths to the
callback, until the callback returns something other than OK or the
source is exhausted; a recorded read error turns a non-ERR result into
ERR.  The callback threads a state of type `σ` (the C `void *data`).
`fuel` bounds the number of loop iterations (`none` = fuel exhausted);
the final io_done call (a no-child handle reset) is not part of the
result. -/
def io_load {σ : Type} (allocOk : Bool) (seps : List Nat)
    (cb : List Nat → Nat → List Nat → Nat → σ → Int × σ) :
    Nat → IOSt → σ → Option (Int × σ)
  | 0, _, _ => none
  | fuel + 1, io, data =>
      match io_get io 10 true allocOk with
      | (none, io') => some (if io'.error ≠ 0 then ERR else OK, data)
      | (some name0, io') =>
          let nv := kvSplit seps name0
          let r := cb nv.1 nv.1.length nv.2 nv.2.length data
          if r.1 = OK then io_load allocOk seps cb fuel io' r.2
          else some (if r.1 ≠ ERR ∧ io'.error ≠ 0 then ERR else r.1, r.2)

/-- Reference behaviour of the io_load loop on an already tokenized
source: process the lines in order exactly as io_load does and stop at
the first callback result other than OK. -/
def loadSpec {σ : Type} (seps : List Nat)
    (cb : List Nat → Nat → List Nat → Nat → σ → Int × σ) :
    List (List Nat) → σ → Int × σ
  | [], data => (OK, data)
  | line :: rest, data =>
      let nv := kvSplit seps line
      let r := cb nv.1 nv.1.length nv.2 nv.2.length data
      if r.1 = OK then loadSpec seps cb rest r.2
      else (r.1, r.2)

/-- A collecting callback for the key-value example: append each
name/value pair and continue. -/
def kvCollector (name : List Nat) (_ : Nat) (value : List Nat) (_ : Nat)
    (acc : List (List Nat × List Nat)) : Int × List (List Nat × List Nat) :=
  (OK, acc ++ [(name, value)])

/- Encoding cache and path encoding detection. -/

/-- ASCII lower-casing of one byte (tolower, as used by strcasecmp). -/
def lowerByte (b : Nat) : Nat := if 65 ≤ b ∧ b ≤ 90 then b + 32 else b

/-- strcasecmp equality: equal up to ASCII case. -/
def strcaseeq (a b : List Nat) : Bool := decide (a.map lowerByte = b.map lowerByte)

/-- encoding_open (io.c lines 37-63): look the charset name up in the
global registry (newest first, case-insensitively); on a miss, attempt
to create a converter (`iconvOk` is the iconv_open oracle) and on
success prepend a new record.  An empty name, or a failed creation,
yields `none` and leaves the registry unchanged.  The registry is the
list of stored `fromcode` names, newest first; a record is identified by
its stored name. -/
def encoding_open (iconvOk : List Nat → Bool) (st : List (List Nat)) (fromcode : List Nat) :
    Option (List Nat) × List (List Nat) :=
  if fromcode = [] then (none, st)
  else
    match st.find? (fun e => strcaseeq e fromcode) with
    | some e => (some e, st)
    | none =>
        if iconvOk fromcode then (some fromcode, fromcode :: st)
        else (none, st)

/-- encoding_convert_string (io.c lines 65-78): feed the line through
iconv into the shared scratch buffer; `iconvFn` is the iconv oracle
(`none` models a failed conversion, including output overflowing the
bounded scratch).  On failure the original line is returned. -/
def encoding_convert_string (iconvFn : List Nat → Option (List Nat)) (line : List Nat) :
    List Nat :=
  match iconvFn line with
  | some out => out
  | none => line

/-- encoding_convert (io.c lines 80-84): convert using the record's
converter; the record is modelled by its converter oracle. -/
def encoding_convert (iconvFn : List Nat → Option (List Nat)) (line : List Nat) : List Nat :=
  encoding_convert_string iconvFn line

/-- Modelled from the spec: SIZEOF_STR, the bounded scratch/string size
from tig/tig.h, which is not under src/ (spec sections 4.6 and 4.7 call
it the bounded scratch/destination). -/
def SIZEOF_STR : Nat := 1024

/-- io_read_buf (io.c lines 509-520): extract one newline token, trim
it, copy it into a bounded destination (string_ncopy truncates to
SIZEOF_STR - 1 bytes; string.c is not under src/, the truncation is
modelled from spec section 4.7), then finalize the handle; `doneOk` is
the io_done result for the underlying command.  Overall success needs
both the token and the finalize. -/
def io_read_buf (io : IOSt) (doneOk : Bool) : Option (List Nat) :=
  match io_get io 10 true true with
  | (some line, _) =>
      if doneOk then some ((chomp_string line).take (SIZEOF_STR - 1)) else none
  | (none, _) => none

/-- io_run_buf (io.c lines 522-528): launch a read-oriented command and
read its first line; `launchOk` models io_run success, `outChunks` the
bytes the command writes, `doneOk` the reaping result. -/
def io_run_buf (launchOk : Bool) (outChunks : List (List Nat)) (doneOk : Bool) :
    Option (List Nat) :=
  if launchOk then io_read_buf (io_from_chunks outChunks) doneOk else none

/-- strstr-based extraction: the suffix of `hay` right after the first
occurrence of `pat`, or `none` when `pat` does not occur. -/
def substrAfter : List Nat → List Nat → Option (List Nat)
  | [], pat => if pat = [] then some [] else none
  | x :: xs, pat =>
      if pat.isPrefixOf (x :: xs) then some ((x :: xs).drop pat.length)
      else substrAfter xs pat

/-- Modelled from the spec: ENCODING_UTF8, the canonical target encoding
name from tig/tig.h, which is not under src/ (the spec's canonical UTF-8
target): the bytes of UTF-8. -/
def ENCODING_UTF8 : List Nat := [85, 84, 70, 45, 56]

/-- The bytes of the separator ENCODING_SEP, colon space encoding colon
space (io.c line 22). -/
def ENCODING_SEP : List Nat := [58, 32, 101, 110, 99, 111, 100, 105, 110, 103, 58, 32]

/-- The bytes of the separator CHARSET_SEP, semicolon space charset
equals (io.c line 25). -/
def CHARSET_SEP : List Nat := [59, 32, 99, 104, 97, 114, 115, 101, 116, 61]

/-- The bytes of the word unspecified. -/
def strUnspecified : List Nat := [117, 110, 115, 112, 101, 99, 105, 102, 105, 101, 100]

/-- The bytes of the word set. -/
def strSet : List Nat := [115, 101, 116]

/-- get_path_encoding (io.c lines 96-127): run the attribute-query
command (oracles `attrLaunchOk`/`attrOut`/`attrDoneOk`), look for the
declared encoding after ENCODING_SEP; when that fails return the
caller's fallback.  When the declared encoding is the canonical UTF-8
target, unspecified or set, run the content-sniffing command and look
for the token after CHARSET_SEP, again returning the fallback when that
fails.  Any parsed token is handed to encoding_open against the registry
`st`. -/
def get_path_encoding (path : List Nat)
    (attrLaunchOk : Bool) (attrOut : List (List Nat)) (attrDoneOk : Bool)
    (fileLaunchOk : Bool) (fileOut : List (List Nat)) (fileDoneOk : Bool)
    (iconvOk : List Nat → Bool) (st : List (List Nat))
    (default_encoding : Option (List Nat)) :
    Option (List Nat) × List (List Nat) :=
  match (if path = [] then none else io_run_buf attrLaunchOk attrOut attrDoneOk).bind
          (fun buf => substrAfter buf ENCODING_SEP) with
  | none => (default_encoding, st)
  | some enc =>
      if enc = ENCODING_UTF8 ∨ enc = strUnspecified ∨ enc = strSet then
        match (if path = [] then none else io_run_buf fileLaunchOk fileOut fileDoneOk).bind
                (fun buf => substrAfter buf CHARSET_SEP) with
        | none => (default_encoding, st)
        | some enc2 => encoding_open iconvOk st enc2
      else encoding_open iconvOk st enc

/- Write path (io_write, io_printf). -/

/-- The errno value EAGAIN. -/
def EAGAIN : Nat := 11

/-- The errno value ENAMETOOLONG. -/
def ENAMETOOLONG : Nat := 36

/-- One result of a write(2) call: either `n` bytes accepted, or a
failure with an errno (EINTR/EAGAIN model the transient conditions the C
loop retries). -/
inductive WriteRes where
  | ok (n : Nat)
  | fail (errno : Nat)
deriving Repr, DecidableEq

/-- The observable state of a write-oriented handle: the recorded error
and the bytes that actually reached the descriptor. -/
structure WrSt where
  error : Nat
  written : List Nat
deriving Repr, DecidableEq

/-- io_write (io.c lines 474-492): loop writing the remaining bytes
until a hard error is recorded or everything was written, retrying on
EINTR/EAGAIN; success means every byte was written.  The oracle lists
the successive write(2) results; `none` means it was exhausted while the
loop still wanted to write. -/
def io_write (buf : List Nat) : WrSt → Nat → List WriteRes → Option (Bool × WrSt)
  | st, written, [] =>
      if st.error ≠ 0 ∨ buf.length ≤ written then some (decide (written = buf.length), st)
      else none
  | st, written, r :: rs =>
      if st.error ≠ 0 ∨ buf.length ≤ written then some (decide (written = buf.length), st)
      else
        match r with
        | .fail e =>
            if e = EAGAIN ∨ e = EINTR then io_write buf st written rs
            else io_write buf { st with error := e } written rs
        | .ok n =>
            let d := (buf.drop written).take n
            io_write buf { st with written := st.written ++ d } (written + d.length) rs

/-- Modelled from the spec: the FORMAT_BUFFER macro from tig/tig.h is
not under src/.  Spec section 4.6: formats into a bounded scratch buffer
of SIZEOF_STR bytes and reports a negative result exactly when the
formatted expansion (here abstracted as the byte list the format would
produce) does not fit. -/
def format_buffer (formatted : List Nat) : Option (List Nat) :=
  if formatted.length < SIZEOF_STR then some formatted else none

/-- io_printf (io.c lines 494-507): format into the bounded scratch; on
overflow record ENAMETOOLONG and fail without writing; otherwise hand
the formatted bytes to io_write. -/
def io_printf (st : WrSt) (formatted : List Nat) (oracle : List WriteRes) :
    Option (Bool × WrSt) :=
  match format_buffer formatted with
  | none => some (false, { st with error := ENAMETOOLONG })
  | some buf => io_write buf st 0 oracle

/- Helper lemmas about lists and the unread region. -/

theorem takeWhile_append_left {p : Nat → Bool} {a : List Nat} (b : List Nat)
    (h : a.dropWhile p ≠ []) :
    (a ++ b).takeWhile p = a.takeWhile p ∧ (a ++ b).dropWhile p = a.dropWhile p ++ b := by
  induction a with
  | nil => simp at h
  | cons x xs ih =>
      by_cases hx : p x
      · rw [List.dropWhile_cons, if_pos hx] at h
        obtain ⟨h1, h2⟩ := ih h
        simp [List.takeWhile_cons, List.dropWhile_cons, hx, h1, h2]
      · simp [List.takeWhile_cons, List.dropWhile_cons, hx]

theorem takeWhile_of_dropWhile_eq_nil {p : Nat → Bool} {l : List Nat}
    (h : l.dropWhile p = []) : l.takeWhile p = l := by
  have h2 := List.takeWhile_append_dropWhile p l
  rw [h, List.append_nil] at h2
  exact h2

theorem dropWhile_head_false {p : Nat → Bool} {l : List Nat} {d : Nat} {ds : List Nat}
    (h : l.dropWhile p = d :: ds) : p d = false := by
  induction l with
  | nil => simp at h
  | cons x xs ih =>
      rw [List.dropWhile_cons] at h
      by_cases hx : p x
      · rw [if_pos hx] at h
        exact ih h
      · rw [if_neg hx] at h
        injection h with h1 _
        rw [← h1]
        simpa using hx

theorem length_unread_of_inv (io : IOSt) (h : io.bufpos + io.bufsize ≤ io.buf.length) :
    io.unread.length = io.bufsize := by
  simp [IOSt.unread]
  omega

theorem take_size_append (A d B : List Nat) (n : Nat) (hA : A.length = n) :
    (A ++ (d ++ B)).take (n + d.length) = A ++ d := by
  subst hA
  rw [List.take_append, List.take_left]

theorem io_get_found (io : IOSt) (c : Nat) (cr a : Bool) {d : Nat} {ds : List Nat}
    (h : io.unread.dropWhile (fun b => b ≠ c) = d :: ds) :
    io_get io c cr a =
      (some (io.unread.takeWhile (fun b => b ≠ c)),
       { io with
         buf := io.buf.set (io.bufpos + (io.unread.takeWhile (fun b => b ≠ c)).length) 0,
         bufpos := io.bufpos + (io.unread.takeWhile (fun b => b ≠ c)).length + 1,
         bufsize := io.bufsize - ((io.unread.takeWhile (fun b => b ≠ c)).length + 1) }) := by
  unfold io_get
  rw [h]

theorem io_get_eof_tail (io : IOSt) (c : Nat) (cr a : Bool)
    (h : io.unread.dropWhile (fun b => b ≠ c) = [])
    (heof : io.eof = true) (hsz : io.bufsize ≠ 0) :
    io_get io c cr a =
      (some io.unread,
       { io with
         buf := io.buf.set (io.bufpos + io.bufsize) 0,
         bufpos := io.bufpos + io.bufsize,
         bufsize := 0 }) := by
  unfold io_get
  rw [h]
  simp [io_eof, heof, hsz]

theorem io_get_eof_none (io : IOSt) (c : Nat) (cr a : Bool)
    (h : io.unread.dropWhile (fun b => b ≠ c) = [])
    (heof : io.eof = true) (hsz : io.bufsize = 0) :
    io_get io c cr a = (none, io) := by
  unfold io_get
  rw [h]
  simp [io_eof, heof, hsz]

theorem io_get_grow_fail (io : IOSt) (c : Nat) (a : Bool)
    (h : io.unread.dropWhile (fun b => b ≠ c) = [])
    (heof : io.eof = false)
    (hgrow : io_grow a
        (if 0 < io.bufsize ∧ 0 < io.bufpos
         then io.unread ++ io.buf.drop io.bufsize else io.buf) io.bufsize = none) :
    io_get io c true a =
      (none, { io with
               buf := (if 0 < io.bufsize ∧ 0 < io.bufpos
                       then io.unread ++ io.buf.drop io.bufsize else io.buf) }) := by
  unfold io_get
  rw [h, hgrow]
  simp [io_eof, heof]

theorem io_get_read_step (io : IOSt) (c : Nat) (a : Bool)
    (h : io.unread.dropWhile (fun b => b ≠ c) = [])
    (heof : io.eof = false) {buf2 : List Nat}
    (hgrow : io_grow a
        (if 0 < io.bufsize ∧ 0 < io.bufpos
         then io.unread ++ io.buf.drop io.bufsize else io.buf) io.bufsize = some buf2)
    {d : List Nat} {io2 : IOSt}
    (hrd : io_read io (buf2.length - io.bufsize) = (d, io2))
    (herr2 : io2.error = 0) :
    io_get io c true a =
      io_get
        { io2 with
          buf := buf2.take io.bufsize ++ d ++ buf2.drop (io.bufsize + d.length),
          bufpos := 0,
          bufsize := io.bufsize + d.length }
        c true a := by
  conv_lhs => unfold io_get
  rw [h, hgrow]
  simp [io_eof, io_error, heof, hrd, herr2]

set_option maxHeartbeats 3200000 in
theorem io_get_spec (c : Nat) : ∀ (n : Nat) (io : IOSt), ioMeasure io ≤ n → io.inv →
    ((io_get io c true true).1 =
      if io.stream = [] then none
      else some (io.stream.takeWhile (fun b => b ≠ c)))
    ∧ (io_get io c true true).2.stream = (io.stream.dropWhile (fun b => b ≠ c)).drop 1
    ∧ (io_get io c true true).2.inv := by
  intro n
  induction n using Nat.strong_induction_on with
  | _ n ih =>
    intro io hn hinv
    obtain ⟨hle, hch, herr⟩ := hinv
    have hulen : io.unread.length = io.bufsize := length_unread_of_inv io hle
    rcases hd : io.unread.dropWhile (fun b => b ≠ c) with _ | ⟨d, ds⟩
    · -- no delimiter in the unread region
      rcases heof : io.eof with _ | _
      · -- not at EOF: compact, grow, read, recurse
        have hb1len : (if 0 < io.bufsize ∧ 0 < io.bufpos
            then io.unread ++ io.buf.drop io.bufsize else io.buf).length = io.buf.length := by
          split_ifs with hcond
          · rw [List.length_append, hulen, List.length_drop]
            omega
          · rfl
        have hb1take : (if 0 < io.bufsize ∧ 0 < io.bufpos
            then io.unread ++ io.buf.drop io.bufsize else io.buf).take io.bufsize = io.unread := by
          split_ifs with hcond
          · rw [← hulen, List.take_left]
          · rcases Nat.eq_zero_or_pos io.bufsize with hsz | hsz
            · rw [hsz]
              simp [IOSt.unread, hsz]
            · have hpos : io.bufpos = 0 := by
                rcases Nat.eq_zero_or_pos io.bufpos with h0 | h0
                · exact h0
                · exact absurd ⟨hsz, h0⟩ hcond
              simp [IOSt.unread, hpos]
        obtain ⟨buf2, hgrow, hb2take, hb2big⟩ :
            ∃ buf2, io_grow true (if 0 < io.bufsize ∧ 0 < io.bufpos
                then io.unread ++ io.buf.drop io.bufsize else io.buf) io.bufsize = some buf2 ∧
              buf2.take io.bufsize = io.unread ∧ io.bufsize < buf2.length := by
          by_cases hfull : (if 0 < io.bufsize ∧ 0 < io.bufpos
              then io.unread ++ io.buf.drop io.bufsize else io.buf).length = io.bufsize
          · refine ⟨(if 0 < io.bufsize ∧ 0 < io.bufpos
                then io.unread ++ io.buf.drop io.bufsize else io.buf) ++ List.replicate BUFSIZ 0,
                ?_, ?_, ?_⟩
            · simp [io_grow, io_realloc_buf, hfull]
            · rw [List.take_append_of_le_length (by omega), hb1take]
            · rw [List.length_append, List.length_replicate]
              have hB : 0 < BUFSIZ := by norm_num [BUFSIZ]
              omega
          · refine ⟨(if 0 < io.bufsize ∧ 0 < io.bufpos
                then io.unread ++ io.buf.drop io.bufsize else io.buf), ?_, hb1take, ?_⟩
            · simp [io_grow, hfull]
            · omega
        have hb2tlen : (buf2.take io.bufsize).length = io.bufsize := by
          rw [List.length_take]
          omega
        rcases hin : io.input with _ | ⟨ch, rest⟩
        · -- the descriptor is exhausted: read returns 0 and sets eof
          have hrd : io_read io (buf2.length - io.bufsize) = ([], { io with eof := true }) := by
            unfold io_read
            rw [hin]
          rw [io_get_read_step io c true hd heof hgrow hrd herr]
          have hunread' :
              ({ buf := buf2.take io.bufsize ++ [] ++ buf2.drop (io.bufsize + List.length ([] : List Nat)),
                 bufpos := 0, bufsize := io.bufsize + List.length ([] : List Nat),
                 eof := true, error := io.error, input := io.input } : IOSt).unread = io.unread := by
            simp only [IOSt.unread, List.length_nil, List.append_nil, Nat.add_zero, List.drop_zero]
            rw [List.take_append_drop]
            exact hb2take
          have hstream' :
              ({ buf := buf2.take io.bufsize ++ [] ++ buf2.drop (io.bufsize + List.length ([] : List Nat)),
                 bufpos := 0, bufsize := io.bufsize + List.length ([] : List Nat),
                 eof := true, error := io.error, input := io.input } : IOSt).stream = io.stream := by
            simp only [IOSt.stream, hunread']
            simp [heof, hin]
          have hinv' :
              ({ buf := buf2.take io.bufsize ++ [] ++ buf2.drop (io.bufsize + List.length ([] : List Nat)),
                 bufpos := 0, bufsize := io.bufsize + List.length ([] : List Nat),
                 eof := true, error := io.error, input := io.input } : IOSt).inv := by
            refine ⟨?_, ?_, herr⟩
            · simp only [List.length_nil, List.append_nil, Nat.add_zero, List.length_append]
              omega
            · rw [hin]
              intro ch h0
              simp at h0
          have hmeas :
              ioMeasure
                ({ buf := buf2.take io.bufsize ++ [] ++ buf2.drop (io.bufsize + List.length ([] : List Nat)),
                   bufpos := 0, bufsize := io.bufsize + List.length ([] : List Nat),
                   eof := true, error := io.error, input := io.input } : IOSt) < ioMeasure io := by
            simp [ioMeasure, hin, heof]
          obtain ⟨g1, g2, g3⟩ := ih _ (lt_of_lt_of_le hmeas hn) _ le_rfl hinv'
          rw [hstream'] at g1 g2
          exact ⟨g1, g2, g3⟩
        · -- a chunk is pending
          have hcne : ch ≠ [] := hch ch (by rw [hin]; exact List.mem_cons_self ch rest)
          have hsp : 0 < buf2.length - io.bufsize := by omega
          have htkne : ch.take (buf2.length - io.bufsize) ≠ [] := by
            rw [Ne, List.take_eq_nil_iff]
            push_neg
            exact ⟨by omega, hcne⟩
          by_cases hpart : buf2.length - io.bufsize < ch.length
          · -- partial read of the head chunk
            have hrd : io_read io (buf2.length - io.bufsize) =
                (ch.take (buf2.length - io.bufsize),
                 { io with input := ch.drop (buf2.length - io.bufsize) :: rest }) := by
              unfold io_read
              simp only [hin]
              rw [if_neg htkne, if_pos hpart]
            rw [io_get_read_step io c true hd heof hgrow hrd herr]
            have htklen : (ch.take (buf2.length - io.bufsize)).length = buf2.length - io.bufsize := by
              rw [List.length_take]
              omega
            have hunread' :
                ({ buf := buf2.take io.bufsize ++ ch.take (buf2.length - io.bufsize)
                       ++ buf2.drop (io.bufsize + (ch.take (buf2.length - io.bufsize)).length),
                   bufpos := 0, bufsize := io.bufsize + (ch.take (buf2.length - io.bufsize)).length,
                   eof := io.eof, error := io.error,
                   input := ch.drop (buf2.length - io.bufsize) :: rest } : IOSt).unread
                = io.unread ++ ch.take (buf2.length - io.bufsize) := by
              simp only [IOSt.unread, List.drop_zero, List.append_assoc]
              rw [take_size_append _ _ _ _ hb2tlen, hb2take]
              rfl
            have hstream' :
                ({ buf := buf2.take io.bufsize ++ ch.take (buf2.length - io.bufsize)
                       ++ buf2.drop (io.bufsize + (ch.take (buf2.length - io.bufsize)).length),
                   bufpos := 0, bufsize := io.bufsize + (ch.take (buf2.length - io.bufsize)).length,
                   eof := io.eof, error := io.error,
                   input := ch.drop (buf2.length - io.bufsize) :: rest } : IOSt).stream = io.stream := by
              simp only [IOSt.stream, hunread']
              simp only [heof, hin]
              simp only [Bool.false_eq_true, if_false, List.flatten_cons, List.append_assoc]
              rw [← List.append_assoc (ch.take (buf2.length - io.bufsize)), List.take_append_drop]
            have hinv' :
                ({ buf := buf2.take io.bufsize ++ ch.take (buf2.length - io.bufsize)
                       ++ buf2.drop (io.bufsize + (ch.take (buf2.length - io.bufsize)).length),
                   bufpos := 0, bufsize := io.bufsize + (ch.take (buf2.length - io.bufsize)).length,
                   eof := io.eof, error := io.error,
                   input := ch.drop (buf2.length - io.bufsize) :: rest } : IOSt).inv := by
              refine ⟨?_, ?_, herr⟩
              · simp only [List.length_append]
                omega
              · intro x hx
                rcases List.mem_cons.mp hx with hx | hx
                · subst hx
                  rw [Ne, List.drop_eq_nil_iff]
                  omega
                · exact hch x (by rw [hin]; exact List.mem_cons_of_mem ch hx)
            have hmeas :
                ioMeasure
                  ({ buf := buf2.take io.bufsize ++ ch.take (buf2.length - io.bufsize)
                         ++ buf2.drop (io.bufsize + (ch.take (buf2.length - io.bufsize)).length),
                     bufpos := 0, bufsize := io.bufsize + (ch.take (buf2.length - io.bufsize)).length,
                     eof := io.eof, error := io.error,
                     input := ch.drop (buf2.length - io.bufsize) :: rest } : IOSt) < ioMeasure io := by
              simp only [ioMeasure, hin, heof, List.map_cons, List.sum_cons, List.length_cons,
                List.length_drop]
              omega
            obtain ⟨g1, g2, g3⟩ := ih _ (lt_of_lt_of_le hmeas hn) _ le_rfl hinv'
            rw [hstream'] at g1 g2
            exact ⟨g1, g2, g3⟩
          · -- the whole head chunk fits
            have hrd : io_read io (buf2.length - io.bufsize) =
                (ch, { io with input := rest }) := by
              unfold io_read
              simp only [hin]
              rw [if_neg htkne, if_neg hpart]
            rw [io_get_read_step io c true hd heof hgrow hrd herr]
            have hunread' :
                ({ buf := buf2.take io.bufsize ++ ch ++ buf2.drop (io.bufsize + ch.length),
                   bufpos := 0, bufsize := io.bufsize + ch.length,
                   eof := io.eof, error := io.error, input := rest } : IOSt).unread
                = io.unread ++ ch := by
              simp only [IOSt.unread, List.drop_zero, List.append_assoc]
              rw [take_size_append _ _ _ _ hb2tlen, hb2take]
              rfl
            have hstream' :
                ({ buf := buf2.take io.bufsize ++ ch ++ buf2.drop (io.bufsize + ch.length),
                   bufpos := 0, bufsize := io.bufsize + ch.length,
                   eof := io.eof, error := io.error, input := rest } : IOSt).stream = io.stream := by
              simp only [IOSt.stream, hunread']
              simp [heof, hin]
            have hinv' :
                ({ buf := buf2.take io.bufsize ++ ch ++ buf2.drop (io.bufsize + ch.length),
                   bufpos := 0, bufsize := io.bufsize + ch.length,
                   eof := io.eof, error := io.error, input := rest } : IOSt).inv := by
              refine ⟨?_, ?_, herr⟩
              · simp only [List.length_append]
                omega
              · intro x hx
                exact hch x (by rw [hin]; exact List.mem_cons_of_mem ch hx)
            have hmeas :
                ioMeasure
                  ({ buf := buf2.take io.bufsize ++ ch ++ buf2.drop (io.bufsize + ch.length),
                     bufpos := 0, bufsize := io.bufsize + ch.length,
                     eof := io.eof, error := io.error, input := rest } : IOSt) < ioMeasure io := by
              simp only [ioMeasure, hin, heof, List.map_cons, List.sum_cons, List.length_cons]
              have : 0 < ch.length := List.length_pos.mpr hcne
              omega
            obtain ⟨g1, g2, g3⟩ := ih _ (lt_of_lt_of_le hmeas hn) _ le_rfl hinv'
            rw [hstream'] at g1 g2
            exact ⟨g1, g2, g3⟩
      · -- at EOF
        by_cases hsz : io.bufsize = 0
        · rw [io_get_eof_none io c true true hd heof hsz]
          have hstream : io.stream = [] := by
            have : io.unread = [] := by
              rw [← List.length_eq_zero]
              rw [hulen, hsz]
            simp [IOSt.stream, this, heof]
          refine ⟨by rw [hstream]; simp, ?_, ⟨hle, hch, herr⟩⟩
          rw [hstream]
          simp
        · rw [io_get_eof_tail io c true true hd heof hsz]
          have hstream : io.stream = io.unread := by
            simp [IOSt.stream, heof]
          have hune : io.unread ≠ [] := by
            intro h0
            rw [h0] at hulen
            exact hsz hulen.symm
          have htw : io.stream.takeWhile (fun b => b ≠ c) = io.unread := by
            rw [hstream]
            exact takeWhile_of_dropWhile_eq_nil hd
          refine ⟨?_, ?_, ?_⟩
          · rw [if_neg (by rw [hstream]; exact hune), htw]
          · have hdw : io.stream.dropWhile (fun b => b ≠ c) = [] := by
              rw [hstream, hd]
            rw [hdw]
            simp [IOSt.stream, IOSt.unread, heof]
          · refine ⟨?_, hch, herr⟩
            simp only [List.length_set]
            omega
    · -- delimiter found
      rw [io_get_found io c true true hd]
      set A := io.unread.takeWhile (fun b => b ≠ c) with hA
      have hdc : d = c := by
        have := dropWhile_head_false hd
        simpa using this
      have hsplit : io.unread = A ++ d :: ds := by
        conv_lhs => rw [← List.takeWhile_append_dropWhile (fun b => decide (b ≠ c)) io.unread]
        rw [hd]
      have hlen : A.length + (ds.length + 1) = io.bufsize := by
        have h0 := congrArg List.length hsplit
        rw [List.length_append, List.length_cons] at h0
        rw [hulen] at h0
        omega
      have hune : io.unread ≠ [] := by
        rw [hsplit]
        simp
      have hsne : io.stream ≠ [] := by
        simp only [IOSt.stream]
        intro h0
        rcases List.append_eq_nil.mp h0 with ⟨h1, _⟩
        exact hune h1
      have htkw := takeWhile_append_left
        (p := fun b => decide (b ≠ c))
        (a := io.unread)
        (b := if io.eof = true then [] else io.input.flatten)
        (by rw [hd]; simp)
      refine ⟨?_, ?_, ?_⟩
      · rw [if_neg hsne]
        simp only [IOSt.stream]
        rw [htkw.1]
      · -- stream of the new state
        have hrhs : (io.stream.dropWhile (fun b => b ≠ c)).drop 1
            = ds ++ (if io.eof = true then [] else io.input.flatten) := by
          simp only [IOSt.stream]
          rw [htkw.2, hd]
          simp
        rw [hrhs]
        have hunread' :
            ({ io with
               buf := io.buf.set (io.bufpos + A.length) 0,
               bufpos := io.bufpos + A.length + 1,
               bufsize := io.bufsize - (A.length + 1) } : IOSt).unread = ds := by
          calc ({ io with
               buf := io.buf.set (io.bufpos + A.length) 0,
               bufpos := io.bufpos + A.length + 1,
               bufsize := io.bufsize - (A.length + 1) } : IOSt).unread
              = ((io.buf.set (io.bufpos + A.length) 0).drop
                  (io.bufpos + A.length + 1)).take (io.bufsize - (A.length + 1)) := rfl
            _ = (io.buf.drop (io.bufpos + A.length + 1)).take (io.bufsize - (A.length + 1)) := by
                  rw [List.drop_set_of_lt _ _ (by omega)]
            _ = ((io.buf.drop io.bufpos).drop (A.length + 1)).take (io.bufsize - (A.length + 1)) := by
                  rw [List.drop_drop]
                  have hx : io.bufpos + (A.length + 1) = io.bufpos + A.length + 1 := by omega
                  rw [hx]
            _ = ((io.buf.drop io.bufpos).take io.bufsize).drop (A.length + 1) := by
                  rw [List.drop_take]
            _ = io.unread.drop (A.length + 1) := rfl
            _ = (A ++ d :: ds).drop (A.length + 1) := by rw [← hsplit]
            _ = ds := by
                  rw [← List.drop_drop]
                  rw [List.drop_left]
                  simp
        simp only [IOSt.stream]
        rw [hunread']
      · refine ⟨?_, hch, herr⟩
        simp only [List.length_set]
        omega

theorem io_get_spec' (c : Nat) (io : IOSt) (hinv : io.inv) :
    ((io_get io c true true).1 =
      if io.stream = [] then none
      else some (io.stream.takeWhile (fun b => b ≠ c)))
    ∧ (io_get io c true true).2.stream = (io.stream.dropWhile (fun b => b ≠ c)).drop 1
    ∧ (io_get io c true true).2.inv :=
  io_get_spec c (ioMeasure io) io le_rfl hinv

theorem splitTokens_nil_iff (c : Nat) (s : List Nat) : splitTokens c s = [] ↔ s = [] := by
  constructor
  · intro h
    cases s with
    | nil => rfl
    | cons x xs =>
        unfold splitTokens at h
        by_cases hx : x = c
        · rw [if_pos hx] at h
          simp at h
        · rw [if_neg hx] at h
          rcases hsp : splitTokens c xs with _ | ⟨t, ts⟩ <;> rw [hsp] at h <;> simp at h
  · intro h
    rw [h]
    rfl

theorem splitTokens_cons_eq (c : Nat) (s : List Nat) (hne : s ≠ []) :
    splitTokens c s =
      s.takeWhile (fun b => b ≠ c) :: splitTokens c ((s.dropWhile (fun b => b ≠ c)).drop 1) := by
  induction s with
  | nil => exact absurd rfl hne
  | cons x xs ih =>
      by_cases hx : x = c
      · subst hx
        conv_lhs => unfold splitTokens
        rw [if_pos rfl]
        simp [List.takeWhile_cons, List.dropWhile_cons]
      · have htk : (x :: xs).takeWhile (fun b => b ≠ c) = x :: xs.takeWhile (fun b => b ≠ c) := by
          simp [List.takeWhile_cons, hx]
        have hdw : (x :: xs).dropWhile (fun b => b ≠ c) = xs.dropWhile (fun b => b ≠ c) := by
          simp [List.dropWhile_cons, hx]
        rcases hxs : xs with _ | ⟨y, ys⟩
        · subst hxs
          conv_lhs => unfold splitTokens
          rw [if_neg hx]
          simp [List.takeWhile_cons, List.dropWhile_cons, hx]
          rfl
        · rw [← hxs]
          have hxsne : xs ≠ [] := by rw [hxs]; simp
          conv_lhs => unfold splitTokens
          rw [if_neg hx, ih hxsne, htk, hdw]

theorem io_run_spec (c : Nat) : ∀ (n : Nat) (io : IOSt), io.inv →
    (io_run c true true n io).1 = (splitTokens c io.stream).take n := by
  intro n
  induction n with
  | zero => intro io _; simp [io_run]
  | succ n ih =>
      intro io hinv
      obtain ⟨g1, g2, g3⟩ := io_get_spec' c io hinv
      rcases hg : io_get io c true true with ⟨r, io'⟩
      rw [hg] at g1 g2 g3
      by_cases hs : io.stream = []
      · have hr : r = none := by rw [if_pos hs] at g1; exact g1
        subst hr
        have hrun : io_run c true true (n + 1) io = ([], io') := by
          simp [io_run, hg]
        rw [hrun, hs]
        simp [splitTokens]
      · have hr : r = some (io.stream.takeWhile (fun b => b ≠ c)) := by
          rw [if_neg hs] at g1; exact g1
        subst hr
        have hrun : io_run c true true (n + 1) io
            = ((io.stream.takeWhile (fun b => b ≠ c)) :: (io_run c true true n io').1,
               (io_run c true true n io').2) := by
          simp [io_run, hg]
        rw [hrun]
        have hih := ih io' g3
        rw [g2] at hih
        rw [splitTokens_cons_eq c io.stream hs]
        simp only [List.take_succ_cons]
        rw [hih]

theorem dropWhile_ne_of_not_mem (c : Nat) (l : List Nat) (h : c ∉ l) :
    l.dropWhile (fun b => b ≠ c) = [] := by
  rw [List.dropWhile_eq_nil_iff]
  intro x hx
  simp only [decide_eq_true_eq]
  intro h0
  exact h (h0 ▸ hx)

theorem takeWhile_ne_append (c : Nat) (rest : List Nat) : ∀ (l : List Nat), c ∉ l →
    ((l ++ c :: rest).takeWhile (fun b => b ≠ c) = l)
    ∧ ((l ++ c :: rest).dropWhile (fun b => b ≠ c) = c :: rest) := by
  intro l
  induction l with
  | nil => intro _; simp [List.takeWhile_cons, List.dropWhile_cons]
  | cons x xs ih =>
      intro h
      simp only [List.mem_cons, not_or] at h
      obtain ⟨h1, h2⟩ := h
      have hx : x ≠ c := fun h0 => h1 h0.symm
      obtain ⟨ih1, ih2⟩ := ih h2
      constructor
      · rw [List.cons_append, List.takeWhile_cons, if_pos (by simp [hx]), ih1]
      · rw [List.cons_append, List.dropWhile_cons, if_pos (by simp [hx]), ih2]

theorem splitTokens_single (c : Nat) (l : List Nat) (hne : l ≠ []) (h : c ∉ l) :
    splitTokens c l = [l] := by
  rw [splitTokens_cons_eq c l hne]
  rw [dropWhile_ne_of_not_mem c l h]
  rw [takeWhile_of_dropWhile_eq_nil (dropWhile_ne_of_not_mem c l h)]
  rfl

theorem splitTokens_joinSep (c : Nat) : ∀ (lines : List (List Nat)) (hne : lines ≠ []),
    (∀ l ∈ lines, c ∉ l) → lines.getLast hne ≠ [] →
    splitTokens c (joinSep c lines) = lines := by
  intro lines
  induction lines with
  | nil => intro hne; exact absurd rfl hne
  | cons l ls ih =>
      intro hne hmem hlast
      cases ls with
      | nil =>
          have hl : l ≠ [] := by simpa using hlast
          have hcl : c ∉ l := hmem l (List.mem_cons_self l [])
          show splitTokens c l = [l]
          exact splitTokens_single c l hl hcl
      | cons l2 ls2 =>
          have hj : joinSep c (l :: l2 :: ls2) = l ++ c :: joinSep c (l2 :: ls2) := rfl
          rw [hj]
          have hcl : c ∉ l := hmem l (List.mem_cons_self l (l2 :: ls2))
          obtain ⟨ht, hdw⟩ := takeWhile_ne_append c (joinSep c (l2 :: ls2)) l hcl
          have hne2 : l ++ c :: joinSep c (l2 :: ls2) ≠ [] := by simp
          rw [splitTokens_cons_eq c _ hne2, ht, hdw]
          simp only [List.drop_one, List.tail_cons]
          congr 1
          exact ih (by simp) (fun x hx => hmem x (List.mem_cons_of_mem l hx))
            (by rw [← List.getLast_cons (by simp : l2 :: ls2 ≠ [])]; exact hlast)

theorem splitTokens_joinTerm (c : Nat) : ∀ (lines : List (List Nat)),
    (∀ l ∈ lines, c ∉ l) →
    splitTokens c (joinTerm c lines) = lines := by
  intro lines
  induction lines with
  | nil => intro _; rfl
  | cons l ls ih =>
      intro hmem
      have hj : joinTerm c (l :: ls) = l ++ c :: joinTerm c ls := by
        simp [joinTerm, List.flatten_cons, List.append_assoc]
      rw [hj]
      have hcl : c ∉ l := hmem l (List.mem_cons_self l ls)
      obtain ⟨ht, hdw⟩ := takeWhile_ne_append c (joinTerm c ls) l hcl
      have hne2 : l ++ c :: joinTerm c ls ≠ [] := by simp
      rw [splitTokens_cons_eq c _ hne2, ht, hdw]
      simp only [List.drop_one, List.tail_cons]
      congr 1
      exact ih (fun x hx => hmem x (List.mem_cons_of_mem l hx))

/-- C1: loading a newline-joined string as virtual input (io_from_string)
and repeatedly extracting newline tokens with io_get yields exactly the
lines in order, and every further call (any extra fuel `k`) adds nothing
(end of stream), both without a trailing newline — where, per the
claim's wording, no trailing newline byte follows the last line, i.e.
the last line is non-empty — and with one. -/
theorem claim1_virtual_input_tokenization (lines : List (List Nat)) (hne : lines ≠ [])
    (hnl : ∀ l ∈ lines, 10 ∉ l) (k : Nat) :
    (lines.getLast hne ≠ [] → ∀ io₀, io_from_string (joinSep 10 lines) true = some io₀ →
      (io_run 10 true true (lines.length + k) io₀).1 = lines)
    ∧ (∀ io₀, io_from_string (joinTerm 10 lines) true = some io₀ →
      (io_run 10 true true (lines.length + k) io₀).1 = lines) := by
  have hgen : ∀ S : List Nat, splitTokens 10 S = lines →
      ∀ io₀, io_from_string S true = some io₀ →
      (io_run 10 true true (lines.length + k) io₀).1 = lines := by
    intro S hS io₀ h0
    have hfs : io_from_string S true
        = some { buf := S, bufpos := 0, bufsize := S.length,
                 eof := true, error := 0, input := [] } := rfl
    rw [hfs] at h0
    have hio := Option.some.inj h0
    subst hio
    have hinv : ({ buf := S, bufpos := 0, bufsize := S.length,
                   eof := true, error := 0, input := [] } : IOSt).inv := by
      refine ⟨by simp, by simp, rfl⟩
    have hstream : ({ buf := S, bufpos := 0, bufsize := S.length,
                      eof := true, error := 0, input := [] } : IOSt).stream = S := by
      simp [IOSt.stream, IOSt.unread]
    rw [io_run_spec 10 _ _ hinv, hstream, hS]
    rw [List.take_of_length_le (by omega)]
  exact ⟨fun hlast io₀ h0 => hgen _ (splitTokens_joinSep 10 lines hne hnl hlast) io₀ h0,
         fun io₀ h0 => hgen _ (splitTokens_joinTerm 10 lines hnl) io₀ h0⟩

/-- Witness for C1 at lines `a`, `b`: the string `a\nb` tokenizes to
exactly those two lines. -/
theorem claim1_witness :
    (io_run 10 true true 2
      { buf := [97, 10, 98], bufpos := 0, bufsize := 3, eof := true,
        error := 0, input := [] }).1 = [[97], [98]] :=
  (claim1_virtual_input_tokenization [[97], [98]] (by decide) (by decide) 0).1 (by decide)
    _ (by decide)

/-- C2: driving io_get over the bytes split into arbitrary non-empty
chunks produces exactly the same token sequence as delivering all bytes
in a single chunk, for every delimiter and every call budget. -/
theorem claim2_chunked_tokenization (chunks : List (List Nat))
    (hch : ∀ ch ∈ chunks, ch ≠ []) (hne : chunks ≠ []) (c n : Nat) :
    (io_run c true true n (io_from_chunks chunks)).1 =
    (io_run c true true n (io_from_chunks [chunks.flatten])).1 := by
  have hinv1 : (io_from_chunks chunks).inv := by
    refine ⟨by simp [io_from_chunks], ?_, rfl⟩
    intro x hx
    exact hch x hx
  have hfne : chunks.flatten ≠ [] := by
    rcases hc : chunks with _ | ⟨ch, rest⟩
    · exact absurd hc hne
    · have hchne : ch ≠ [] := hch ch (by rw [hc]; exact List.mem_cons_self ch rest)
      simp only [List.flatten_cons]
      intro h0
      rcases List.append_eq_nil.mp h0 with ⟨h1, _⟩
      exact hchne h1
  have hinv2 : (io_from_chunks [chunks.flatten]).inv := by
    refine ⟨by simp [io_from_chunks], ?_, rfl⟩
    intro x hx
    rcases List.mem_singleton.mp hx with h
    rw [h]
    exact hfne
  have hs1 : (io_from_chunks chunks).stream = chunks.flatten := by
    simp [IOSt.stream, IOSt.unread, io_from_chunks]
  have hs2 : (io_from_chunks [chunks.flatten]).stream = chunks.flatten := by
    simp [IOSt.stream, IOSt.unread, io_from_chunks]
  rw [io_run_spec c n _ hinv1, io_run_spec c n _ hinv2, hs1, hs2]

/-- Witness for C2: the bytes `h`, `i\n` delivered as two chunks
tokenize as when delivered in one chunk. -/
theorem claim2_witness :
    (io_run 10 true true 3 (io_from_chunks [[104], [105, 10]])).1 =
    (io_run 10 true true 3 (io_from_chunks [[104, 105, 10]])).1 :=
  claim2_chunked_tokenization [[104], [105, 10]] (by decide) (by decide) 10 3

/-- C9: when the buffer must grow during io_get (recorded capacity
equals the number of unread bytes) and the allocation fails, the call
reports failure (`none`) and leaves the whole handle state - in
particular the unread bytes, `bufpos` and `bufsize` - unchanged; under
the handle invariant the compaction that precedes the growth check is a
no-op (the unread region already starts at the front). -/
theorem claim9_alloc_failure_preserves_state (io : IOSt) (c : Nat)
    (hle : io.bufpos + io.bufsize ≤ io.buf.length)
    (herr : io.error = 0) (heof : io.eof = false)
    (hnd : io.unread.dropWhile (fun b => b ≠ c) = [])
    (hfull : io.buf.length = io.bufsize) :
    io_get io c true false = (none, io)
    ∧ (io_get io c true false).2.unread = io.unread
    ∧ (io_get io c true false).2.bufpos = io.bufpos
    ∧ (io_get io c true false).2.bufsize = io.bufsize := by
  have hpos : io.bufpos = 0 := by omega
  have hcond : ¬(0 < io.bufsize ∧ 0 < io.bufpos) := by omega
  have hbuf1 : (if 0 < io.bufsize ∧ 0 < io.bufpos
      then io.unread ++ io.buf.drop io.bufsize else io.buf) = io.buf := if_neg hcond
  have h := io_get_grow_fail io c false hnd heof
    (by rw [hbuf1]; simp [io_grow, io_realloc_buf, hfull])
  rw [hbuf1] at h
  have heta : ({ io with buf := io.buf } : IOSt) = io := rfl
  rw [heta] at h
  exact ⟨h, by rw [h], by rw [h], by rw [h]⟩

/-- Witness for C9: a full one-byte buffer holding `a`, no delimiter,
allocation failing: io_get fails and the state is untouched. -/
theorem claim9_witness :
    io_get
      { buf := [97], bufpos := 0, bufsize := 1, eof := false, error := 0,
        input := [[98]] } 10 true false
    = (none,
      { buf := [97], bufpos := 0, bufsize := 1, eof := false, error := 0,
        input := [[98]] }) :=
  (claim9_alloc_failure_preserves_state _ 10 (by decide) (by decide) (by decide)
    (by decide) (by decide)).1

/-- C3: for a handle with a tracked child (pid > 0), io_done retried
transparently over any number of EINTR wait failures: a reaped result
succeeds exactly when the returned pid matches, the child was not
signaled, and the exit status is zero, with a non-zero exit status
stored in the status field; a non-EINTR wait failure reports failure
with the errno stored. -/
theorem claim3_io_done_reaping (pid : Int) (hpid : 0 < pid) :
    (∀ (k : Nat) (w : Int) (sg : Bool) (ex : Nat),
      io_done pid (List.replicate k (WaitResult.err EINTR) ++ [WaitResult.reaped w sg ex])
        = some (decide (w = pid) && !sg && decide (ex = 0), { error := 0, status := ex }))
    ∧ (∀ (k : Nat) (e : Nat), e ≠ EINTR →
      io_done pid (List.replicate k (WaitResult.err EINTR) ++ [WaitResult.err e])
        = some (false, { error := e, status := 0 })) := by
  have hloop : ∀ (k : Nat) (st : DoneSt) (ws : List WaitResult),
      io_done_loop pid st (List.replicate k (WaitResult.err EINTR) ++ ws)
        = io_done_loop pid st ws := by
    intro k
    induction k with
    | zero => intro st ws; rfl
    | succ k ih =>
        intro st ws
        simp only [List.replicate_succ, List.cons_append]
        rw [show io_done_loop pid st (WaitResult.err EINTR ::
            (List.replicate k (WaitResult.err EINTR) ++ ws))
          = io_done_loop pid st (List.replicate k (WaitResult.err EINTR) ++ ws) from by
            simp [io_done_loop]]
        exact ih st ws
  constructor
  · intro k w sg ex
    unfold io_done
    rw [if_pos hpid, hloop]
    by_cases hex : ex = 0
    · subst hex
      simp [io_done_loop]
    · simp [io_done_loop, hex]
  · intro k e he
    unfold io_done
    rw [if_pos hpid, hloop]
    simp [io_done_loop, he]

/-- Witness for C3: pid 5, one EINTR retry, child exits with status 2:
failure is reported and the status field stores 2; and a hard wait error
(errno 10) reports failure with the errno stored. -/
theorem claim3_witness :
    io_done 5 [WaitResult.err EINTR, WaitResult.reaped 5 false 2]
      = some (false, { error := 0, status := 2 })
    ∧ io_done 5 [WaitResult.err 10] = some (false, { error := 10, status := 0 }) :=
  ⟨(claim3_io_done_reaping 5 (by decide)).1 1 5 false 2,
   (claim3_io_done_reaping 5 (by decide)).2 0 10 (by decide)⟩

/-- C4: over a newline-delimited source, io_load hands the callback, in
line order, each line processed by kvSplit (trimmed, split at the first
byte of the separator set, value trimmed, empty value when no separator
occurs), stopping at the first callback result other than OK - i.e. it
behaves exactly as the reference loadSpec on the tokenized stream. -/
theorem claim4_io_load_key_value {σ : Type} (seps : List Nat)
    (cb : List Nat → Nat → List Nat → Nat → σ → Int × σ) :
    ∀ (ts : List (List Nat)) (fuel : Nat), ts.length < fuel →
    ∀ (io : IOSt) (data : σ), io.inv → splitTokens 10 io.stream = ts →
    io_load true seps cb fuel io data = some (loadSpec seps cb ts data) := by
  intro ts
  induction ts with
  | nil =>
      intro fuel hf io data hinv hs
      obtain ⟨f, rfl⟩ : ∃ f, fuel = f + 1 := ⟨fuel - 1, by omega⟩
      have hstream : io.stream = [] := (splitTokens_nil_iff 10 _).mp hs
      obtain ⟨g1, g2, g3⟩ := io_get_spec' 10 io hinv
      rcases hg : io_get io 10 true true with ⟨r, io'⟩
      rw [hg] at g1 g3
      rw [if_pos hstream] at g1
      have hr : r = none := g1
      subst hr
      have herr' : io'.error = 0 := g3.2.2
      simp [io_load, hg, herr', loadSpec]
  | cons t ts ih =>
      intro fuel hf io data hinv hs
      obtain ⟨f, rfl⟩ : ∃ f, fuel = f + 1 := ⟨fuel - 1, by omega⟩
      have hstream : io.stream ≠ [] := by
        intro h0
        rw [(splitTokens_nil_iff 10 _).mpr h0] at hs
        exact List.cons_ne_nil t ts hs.symm
      obtain ⟨g1, g2, g3⟩ := io_get_spec' 10 io hinv
      rcases hg : io_get io 10 true true with ⟨r, io'⟩
      rw [hg] at g1 g2 g3
      rw [if_neg hstream] at g1
      have hr : r = some (io.stream.takeWhile (fun b => b ≠ 10)) := g1
      subst hr
      have hsplit := splitTokens_cons_eq 10 io.stream hstream
      rw [hs] at hsplit
      injection hsplit with h1 h2
      have hts' : splitTokens 10 io'.stream = ts := by rw [g2, ← h2]
      have herr' : io'.error = 0 := g3.2.2
      simp only [io_load, hg]
      rw [← h1]
      simp only [loadSpec]
      by_cases hok : (cb (kvSplit seps t).1 (kvSplit seps t).1.length
          (kvSplit seps t).2 (kvSplit seps t).2.length data).1 = OK
      · rw [if_pos hok, if_pos hok]
        have hf' : ts.length < f := by
          simp only [List.length_cons] at hf
          omega
        exact ih f hf' io' _ g3 hts'
      · rw [if_neg hok, if_neg hok]
        simp [herr']

/-- Witness for C4: the lines `key: value` and `key2:value2` with
separator set `:` collected by kvCollector yield exactly the pairs
(key, value) and (key2, value2). -/
theorem claim4_witness :
    io_load true [58] kvCollector 3
      { buf := [107, 101, 121, 58, 32, 118, 97, 108, 117, 101, 10,
                107, 101, 121, 50, 58, 118, 97, 108, 117, 101, 50],
        bufpos := 0, bufsize := 22, eof := true, error := 0, input := [] } []
    = some (OK, [([107, 101, 121], [118, 97, 108, 117, 101]),
                 ([107, 101, 121, 50], [118, 97, 108, 117, 101, 50])]) := by
  rw [claim4_io_load_key_value [58] kvCollector _ 3 (by decide) _ [] (by decide) rfl]
  decide

theorem strcaseeq_symm (x y : List Nat) : strcaseeq x y = strcaseeq y x := by
  simp [strcaseeq, eq_comm]

theorem find?_congr_pred {α : Type} (p q : α → Bool) (h : ∀ e, p e = q e) :
    ∀ l : List α, l.find? p = l.find? q := by
  intro l
  induction l with
  | nil => rfl
  | cons x xs ih =>
      rw [List.find?_cons, List.find?_cons, h x, ih]

/-- C6: the encoding registry keeps at most one record per
case-insensitive charset name: an empty name yields none and leaves the
registry alone; after a successful open of `a`, opening any
case-variant `b` returns the identical record and adds nothing; a
failed converter creation returns none without caching anything, so a
later call with the same name attempts creation again (and succeeds
when iconv does); and every call preserves the no-duplicates invariant
of the registry. -/
theorem claim6_encoding_open_cache :
    (∀ (iconvOk : List Nat → Bool) (st : List (List Nat)),
        encoding_open iconvOk st [] = (none, st))
    ∧ (∀ (iconvOk iconvOk' : List Nat → Bool) (st st' : List (List Nat))
          (a b r : List Nat), strcaseeq a b = true →
        encoding_open iconvOk st a = (some r, st') →
        encoding_open iconvOk' st' b = (some r, st'))
    ∧ (∀ (iconvOk : List Nat → Bool) (st : List (List Nat)) (fc : List Nat),
        fc ≠ [] → st.find? (fun e => strcaseeq e fc) = none → iconvOk fc = false →
        encoding_open iconvOk st fc = (none, st))
    ∧ (∀ (iconvOk' : List Nat → Bool) (st : List (List Nat)) (fc : List Nat),
        fc ≠ [] → st.find? (fun e => strcaseeq e fc) = none → iconvOk' fc = true →
        encoding_open iconvOk' st fc = (some fc, fc :: st))
    ∧ (∀ (iconvOk : List Nat → Bool) (st st2 : List (List Nat)) (fc : List Nat)
          (r : Option (List Nat)),
        st.Pairwise (fun x y => strcaseeq x y = false) →
        encoding_open iconvOk st fc = (r, st2) →
        st2.Pairwise (fun x y => strcaseeq x y = false)) := by
  refine ⟨?_, ?_, ?_, ?_, ?_⟩
  · intro iconvOk st
    rfl
  · intro iconvOk iconvOk' st st' a b r hab h
    have hane : a ≠ [] := by
      intro h0
      rw [h0] at h
      simp [encoding_open] at h
    have hmab : a.map lowerByte = b.map lowerByte := by
      have := of_decide_eq_true hab
      exact this
    have hbne : b ≠ [] := by
      intro h0
      rw [h0] at hmab
      simp at hmab
      exact hane hmab
    have hpred : ∀ e, strcaseeq e a = strcaseeq e b := by
      intro e
      unfold strcaseeq
      rw [hmab]
    rw [encoding_open, if_neg hane] at h
    rcases hfind : st.find? (fun e => strcaseeq e a) with _ | e
    · simp only [hfind] at h
      by_cases hic : iconvOk a
      · rw [if_pos hic] at h
        have hr : r = a := (Option.some.inj (congrArg Prod.fst h)).symm
        have hst : st' = a :: st := (congrArg Prod.snd h).symm
        rw [hst, hr, encoding_open, if_neg hbne]
        have hfr : (a :: st).find? (fun e => strcaseeq e b) = some a := by
          simp [List.find?_cons, hab]
        simp only [hfr]
      · rw [if_neg hic] at h
        simp at h
    · simp only [hfind] at h
      have hr : r = e := (Option.some.inj (congrArg Prod.fst h)).symm
      have hst : st' = st := (congrArg Prod.snd h).symm
      rw [hst, hr, encoding_open, if_neg hbne]
      rw [find?_congr_pred _ _ (fun x => (hpred x).symm) st]
      simp only [hfind]
  · intro iconvOk st fc hne hfind hic
    rw [encoding_open, if_neg hne]
    simp only [hfind]
    rw [if_neg (by rw [hic]; simp)]
  · intro iconvOk' st fc hne hfind hic
    rw [encoding_open, if_neg hne]
    simp only [hfind]
    rw [if_pos hic]
  · intro iconvOk st st2 fc r hpw h
    by_cases hne : fc = []
    · rw [hne] at h
      have : st2 = st := by
        have := congrArg Prod.snd h
        simpa [encoding_open] using this.symm
      rw [this]
      exact hpw
    · rw [encoding_open, if_neg hne] at h
      rcases hfind : st.find? (fun e => strcaseeq e fc) with _ | e
      · simp only [hfind] at h
        by_cases hic : iconvOk fc
        · rw [if_pos hic] at h
          have h2 : st2 = fc :: st := (congrArg Prod.snd h).symm
          rw [h2]
          refine List.pairwise_cons.mpr ⟨?_, hpw⟩
          intro e he
          rw [strcaseeq_symm]
          have := List.find?_eq_none.mp hfind e he
          exact Bool.eq_false_iff.mpr this
        · rw [if_neg hic] at h
          have h2 : st2 = st := (congrArg Prod.snd h).symm
          rw [h2]
          exact hpw
      · simp only [hfind] at h
        have h2 : st2 = st := (congrArg Prod.snd h).symm
        rw [h2]
        exact hpw

/-- Witness for C6: with UTF-8 cached, opening utf-8 returns the
identical cached record and leaves the registry unchanged, even though
iconv would now fail. -/
theorem claim6_witness :
    encoding_open (fun _ => false) [[85, 84, 70, 45, 56]] [117, 116, 102, 45, 56]
      = (some [85, 84, 70, 45, 56], [[85, 84, 70, 45, 56]]) :=
  claim6_encoding_open_cache.2.1 (fun _ => true) (fun _ => false) [] [[85, 84, 70, 45, 56]]
    [85, 84, 70, 45, 56] [117, 116, 102, 45, 56] [85, 84, 70, 45, 56]
    (by decide) (by decide)

/-- C7: encoding_convert never reports failure to its caller: when the
underlying iconv conversion fails, the original input line is returned
unchanged (the very same bytes). -/
theorem claim7_convert_best_effort (iconvFn : List Nat → Option (List Nat)) (line : List Nat)
    (h : iconvFn line = none) :
    encoding_convert iconvFn line = line := by
  simp [encoding_convert, encoding_convert_string, h]

/-- Witness for C7: a failing converter leaves the input `hi` as is. -/
theorem claim7_witness :
    encoding_convert (fun _ => none) [104, 105] = [104, 105] :=
  claim7_convert_best_effort (fun _ => none) [104, 105] rfl

/-- C10: a handle whose error field is already non-zero when io_write is
called attempts no write at all (no write oracle entry is consumed, the
state including the written bytes is unchanged) and returns success
exactly for the zero-length buffer, since success means all requested
bytes were written. -/
theorem claim10_write_with_prior_error (st : WrSt) (buf : List Nat) (oracle : List WriteRes)
    (h : st.error ≠ 0) :
    io_write buf st 0 oracle = some (decide (buf.length = 0), st) := by
  cases oracle with
  | nil =>
      unfold io_write
      rw [if_pos (Or.inl h)]
      simp [eq_comm]
  | cons r rs =>
      unfold io_write
      rw [if_pos (Or.inl h)]
      simp [eq_comm]

/-- Witness for C10: error 5 recorded, non-empty buffer, empty oracle:
failure with untouched state; empty buffer: success. -/
theorem claim10_witness :
    io_write [1] { error := 5, written := [] } 0 [] = some (false, { error := 5, written := [] })
    ∧ io_write [] { error := 5, written := [] } 0 [] = some (true, { error := 5, written := [] }) :=
  ⟨claim10_write_with_prior_error { error := 5, written := [] } [1] [] (by decide),
   claim10_write_with_prior_error { error := 5, written := [] } [] [] (by decide)⟩

/-- C8: a formatted expansion that does not fit the bounded scratch
makes io_printf fail with ENAMETOOLONG recorded and performs no write at
all: the bytes that reached the descriptor are unchanged and no write
oracle entry is consumed. -/
theorem claim8_printf_overflow (st : WrSt) (formatted : List Nat) (oracle : List WriteRes)
    (h : SIZEOF_STR ≤ formatted.length) :
    io_printf st formatted oracle = some (false, { st with error := ENAMETOOLONG })
    ∧ ({ st with error := ENAMETOOLONG } : WrSt).written = st.written := by
  constructor
  · unfold io_printf format_buffer
    rw [if_neg (by omega)]
  · rfl

/-- Witness for C8: a 1024-byte expansion does not fit SIZEOF_STR and
fails with ENAMETOOLONG, writing nothing. -/
theorem claim8_witness :
    io_printf { error := 0, written := [] } (List.replicate 1024 97) []
      = some (false, { error := ENAMETOOLONG, written := [] }) :=
  (claim8_printf_overflow { error := 0, written := [] } (List.replicate 1024 97) []
    (by rw [List.length_replicate, SIZEOF_STR])).1

theorem io_run_buf_eval (out : List Nat) (hne : out ≠ []) (doneOk : Bool) :
    io_run_buf true [out] doneOk =
      if doneOk
      then some ((chomp_string (out.takeWhile (fun b => b ≠ 10))).take (SIZEOF_STR - 1))
      else none := by
  unfold io_run_buf io_read_buf
  rw [if_pos rfl]
  have hinv : (io_from_chunks [out]).inv := by
    refine ⟨by simp [io_from_chunks], ?_, rfl⟩
    intro x hx
    rw [List.mem_singleton.mp hx]
    exact hne
  have hs : (io_from_chunks [out]).stream = out := by
    simp [IOSt.stream, IOSt.unread, io_from_chunks]
  obtain ⟨g1, _, _⟩ := io_get_spec' 10 (io_from_chunks [out]) hinv
  rw [hs, if_neg hne] at g1
  rcases hg : io_get (io_from_chunks [out]) 10 true true with ⟨r, io'⟩
  rw [hg] at g1
  have hr : r = some (out.takeWhile (fun b => b ≠ 10)) := g1
  subst hr
  simp only [hg]

theorem encoding_open_fail (iconvOk : List Nat → Bool) (st : List (List Nat)) (fc : List Nat)
    (hne : fc ≠ []) (hfind : st.find? (fun e => strcaseeq e fc) = none)
    (hic : iconvOk fc = false) :
    encoding_open iconvOk st fc = (none, st) := by
  rw [encoding_open, if_neg hne]
  simp only [hfind]
  rw [if_neg (by rw [hic]; simp)]

/-- C5 counterexample: for path `f`, the attribute query declares
`UTF-8` (equal to the canonical target), so the content-sniffing command
runs and its output parses to the charset token `binary`; iconv cannot
open `binary`, so get_path_encoding returns `none` - a distinct failure
value - and NOT the caller-supplied fallback record, contradicting the
claim that it never returns a distinct failure value. -/
theorem claim5_counterexample :
    (get_path_encoding [102] true
      [[102, 58, 32, 101, 110, 99, 111, 100, 105, 110, 103, 58, 32, 85, 84, 70, 45, 56]] true
      true
      [[102, 58, 32, 116, 101, 120, 116, 47, 112, 108, 97, 105, 110, 59, 32, 99, 104, 97,
        114, 115, 101, 116, 61, 98, 105, 110, 97, 114, 121]] true
      (fun _ => false) [] (some [85, 84, 70, 45, 56])).1 ≠ some [85, 84, 70, 45, 56] := by
  unfold get_path_encoding
  rw [io_run_buf_eval
    [102, 58, 32, 101, 110, 99, 111, 100, 105, 110, 103, 58, 32, 85, 84, 70, 45, 56]
    (by decide) true]
  rw [io_run_buf_eval
    [102, 58, 32, 116, 101, 120, 116, 47, 112, 108, 97, 105, 110, 59, 32, 99, 104, 97,
     114, 115, 101, 116, 61, 98, 105, 110, 97, 114, 121]
    (by decide) true]
  decide

/-- C5 amended: when the attribute stage yields no declared-encoding
token (empty path, failed command, or separator absent - which includes
an empty declared value, since trailing whitespace is trimmed before the
match), the fallback is returned without running the sniffing command;
when the declared encoding equals the canonical UTF-8 target,
unspecified or set, the sniffing command is consulted and its result
treated the same way; and any parsed token is passed to encoding_open,
whose result is returned as is - in particular a parsed but unusable
charset (iconv cannot open it and it is not cached) yields the failure
value none rather than the fallback. -/
theorem claim5_amended_path_encoding
    (path : List Nat) (aL : Bool) (aO : List (List Nat)) (aD : Bool)
    (fL : Bool) (fO : List (List Nat)) (fD : Bool)
    (iconvOk : List Nat → Bool) (st : List (List Nat)) (fb : Option (List Nat)) :
    ((if path = [] then none else io_run_buf aL aO aD).bind
        (fun buf => substrAfter buf ENCODING_SEP) = none →
      get_path_encoding path aL aO aD fL fO fD iconvOk st fb = (fb, st))
    ∧ (∀ enc, (if path = [] then none else io_run_buf aL aO aD).bind
        (fun buf => substrAfter buf ENCODING_SEP) = some enc →
      (enc = ENCODING_UTF8 ∨ enc = strUnspecified ∨ enc = strSet) →
      get_path_encoding path aL aO aD fL fO fD iconvOk st fb =
        (match (if path = [] then none else io_run_buf fL fO fD).bind
            (fun buf => substrAfter buf CHARSET_SEP) with
         | none => (fb, st)
         | some cs => encoding_open iconvOk st cs))
    ∧ (∀ enc, (if path = [] then none else io_run_buf aL aO aD).bind
        (fun buf => substrAfter buf ENCODING_SEP) = some enc →
      ¬(enc = ENCODING_UTF8 ∨ enc = strUnspecified ∨ enc = strSet) →
      get_path_encoding path aL aO aD fL fO fD iconvOk st fb = encoding_open iconvOk st enc)
    ∧ (∀ enc cs, (if path = [] then none else io_run_buf aL aO aD).bind
        (fun buf => substrAfter buf ENCODING_SEP) = some enc →
      (enc = ENCODING_UTF8 ∨ enc = strUnspecified ∨ enc = strSet) →
      (if path = [] then none else io_run_buf fL fO fD).bind
        (fun buf => substrAfter buf CHARSET_SEP) = some cs →
      cs ≠ [] → st.find? (fun e => strcaseeq e cs) = none → iconvOk cs = false →
      get_path_encoding path aL aO aD fL fO fD iconvOk st fb = (none, st)) := by
  refine ⟨?_, ?_, ?_, ?_⟩
  · intro h
    unfold get_path_encoding
    simp only [h]
  · intro enc h htrig
    unfold get_path_encoding
    simp only [h]
    rw [if_pos htrig]
  · intro enc h htrig
    unfold get_path_encoding
    simp only [h]
    rw [if_neg htrig]
  · intro enc cs h htrig hcs hcsne hfind hic
    unfold get_path_encoding
    simp only [h]
    rw [if_pos htrig]
    simp only [hcs]
    exact encoding_open_fail iconvOk st cs hcsne hfind hic

/-- Witness for C5 (amended): in the counterexample scenario the
amended claim's unusable-charset case applies and the result is the
failure value with an unchanged registry. -/
theorem claim5_witness :
    get_path_encoding [102] true
      [[102, 58, 32, 101, 110, 99, 111, 100, 105, 110, 103, 58, 32, 85, 84, 70, 45, 56]] true
      true
      [[102, 58, 32, 116, 101, 120, 116, 47, 112, 108, 97, 105, 110, 59, 32, 99, 104, 97,
        114, 115, 101, 116, 61, 98, 105, 110, 97, 114, 121]] true
      (fun _ => false) [] (some [85, 84, 70, 45, 56]) = (none, []) :=
  (claim5_amended_path_encoding [102] true
      [[102, 58, 32, 101, 110, 99, 111, 100, 105, 110, 103, 58, 32, 85, 84, 70, 45, 56]] true
      true
      [[102, 58, 32, 116, 101, 120, 116, 47, 112, 108, 97, 105, 110, 59, 32, 99, 104, 97,
        114, 115, 101, 116, 61, 98, 105, 110, 97, 114, 121]] true
      (fun _ => false) [] (some [85, 84, 70, 45, 56])).2.2.2
    [85, 84, 70, 45, 56] [98, 105, 110, 97, 114, 121]
    (by rw [io_run_buf_eval
        [102, 58, 32, 101, 110, 99, 111, 100, 105, 110, 103, 58, 32, 85, 84, 70, 45, 56]
        (by decide) true]
        decide)
    (by decide)
    (by rw [io_run_buf_eval
        [102, 58, 32, 116, 101, 120, 116, 47, 112, 108, 97, 105, 110, 59, 32, 99, 104, 97,
         114, 115, 101, 116, 61, 98, 105, 110, 97, 114, 121]
        (by decide) true]
        decide)
    (by decide) (by decide) (by decide)
